import Mathlib

/-!
Verification of the quiz application in `src/main.py` (single-user quiz app:
CSV question parser, per-question attempt history, quiz/review view logic).

Python strings are modelled as `List Char` (`PyStr`); Python dicts as
association lists with Python's insert-or-overwrite semantics; fallible
external calls (CSV read, database query, chat-completion call) as `Except`
values fed to the function that wraps them in `try/except`.  Machine floats in
the accuracy metric are idealised as exact rationals; `int()` on a
non-negative value is truncation, i.e. natural-number division.
-/

set_option maxRecDepth 4000

/-- Python strings, modelled as their character lists. -/
abbrev PyStr := List Char

/-- ASCII whitespace, the model of Python's `\s` class and `str.strip`. -/
def isPySpace (c : Char) : Bool :=
  c = ' ' || c = '\t' || c = '\n' || c = '\r' || c = '\x0b' || c = '\x0c'

/-- `str.lstrip()`. -/
def lstrip (s : PyStr) : PyStr := s.dropWhile isPySpace

/-- `str.rstrip()`. -/
def rstrip (s : PyStr) : PyStr := (s.reverse.dropWhile isPySpace).reverse

/-- `str.strip()`. -/
def strip (s : PyStr) : PyStr := rstrip (lstrip s)

/-- `str.upper()` (ASCII model). -/
def pyUpper (s : PyStr) : PyStr := s.map Char.toUpper

/-- Match of the regex `<br>\s*<br>` at the head of `s`
(`main.py` line 79).  Returns the remainder after the match. -/
def matchDoubleBr (s : PyStr) : Option PyStr :=
  if "<br>".data.isPrefixOf s then
    let rest := (s.drop 4).dropWhile isPySpace
    if "<br>".data.isPrefixOf rest then some (rest.drop 4) else none
  else none

/-- `re.split(r'<br>\s*<br>', raw_text, maxsplit=1)`: split at the leftmost
occurrence of the double line-break marker; `none` when the marker is absent
(`main.py` line 79). -/
def splitFirstDoubleBr : PyStr → Option (PyStr × PyStr)
  | [] => none
  | c :: cs =>
    match matchDoubleBr (c :: cs) with
    | some rest => some ([], rest)
    | none =>
      match splitFirstDoubleBr cs with
      | some (pre, post) => some (c :: pre, post)
      | none => none

/-- Match of the regex `<br\s*/?>` at the head of `s` (`main.py` line 87).
Returns the remainder after the match. -/
def matchBrTag (s : PyStr) : Option PyStr :=
  if "<br".data.isPrefixOf s then
    match (s.drop 3).dropWhile isPySpace with
    | '/' :: '>' :: r => some r
    | '>' :: r => some r
    | _ => none
  else none

/-- Fuelled worker for `splitBrTags`; the fuel is the length of the string,
which bounds the number of splits. -/
def splitBrTagsGo : Nat → PyStr → List PyStr
  | _, [] => [[]]
  | 0, s => [s]
  | fuel + 1, c :: cs =>
    match matchBrTag (c :: cs) with
    | some rest => [] :: splitBrTagsGo fuel rest
    | none =>
      match splitBrTagsGo fuel cs with
      | [] => [[c]]
      | p :: ps => (c :: p) :: ps

/-- `re.split(r'<br\s*/?>', options_block)` (`main.py` line 87). -/
def splitBrTags (s : PyStr) : List PyStr := splitBrTagsGo s.length s

/-- Match of the anchored regex `^\s*([A-D])\.\s*(.*)` (DOTALL) against a
candidate option string (`main.py` lines 89-96): on success, group 1 (the
option letter, a one-character string) and group 2 (the option body). -/
def matchOption (s : PyStr) : Option (PyStr × PyStr) :=
  match s.dropWhile isPySpace with
  | c :: '.' :: rest =>
    if c = 'A' ∨ c = 'B' ∨ c = 'C' ∨ c = 'D' then some ([c], rest.dropWhile isPySpace)
    else none
  | _ => none

/-- Python `dict` lookup `m[k]` / `k in m`, on the association-list model. -/
def dictLookup {κ β : Type} [DecidableEq κ] (k : κ) : List (κ × β) → Option β
  | [] => none
  | (a, v) :: rest => if a = k then some v else dictLookup k rest

/-- Python `dict` assignment `m[k] = v`: overwrite in place if the key is
present, append otherwise. -/
def dictInsert {κ β : Type} [DecidableEq κ] : List (κ × β) → κ → β → List (κ × β)
  | [], k, v => [(k, v)]
  | (a, w) :: rest, k, v =>
    if a = k then (k, v) :: rest else (a, w) :: dictInsert rest k v

/-- Python `m.get(k, d)`. -/
def dictGet {κ β : Type} [DecidableEq κ] (m : List (κ × β)) (k : κ) (d : β) : β :=
  match dictLookup k m with
  | some v => v
  | none => d

/-- The value attached to the last pair of `ps` whose key is `k`, if any.
Specification device for "last assignment wins". -/
def lastVal {κ β : Type} [DecidableEq κ] (k : κ) : List (κ × β) → Option β
  | [] => none
  | (a, v) :: rest =>
    match lastVal k rest with
    | some w => some w
    | none => if a = k then some v else none

/-- One parsed question (`main.py` lines 98-103). -/
structure Question where
  index : Nat
  question : PyStr
  options : List (PyStr × PyStr)
  answer : PyStr
deriving DecidableEq

/-- The option dictionary built from the candidate strings of one row
(`main.py` lines 88-96): each candidate is stripped, matched against
`matchOption`, non-matching candidates are skipped, and matches are written
into the dict (a duplicate letter overwrites the earlier entry). -/
def buildOptions (cands : List PyStr) : List (PyStr × PyStr) :=
  cands.foldl
    (fun m opt =>
      match matchOption (strip opt) with
      | some kv => dictInsert m kv.1 kv.2
      | none => m)
    []

/-- The per-row parse (`main.py` lines 76-103): the blob is split at the first
`<br>\s*<br>`; if the marker is absent the whole blob is the question text and
the options block is empty, otherwise both segments are stripped; the options
block is split at `<br\s*/?>` and fed to `buildOptions`; the answer column is
stripped and uppercased. -/
def parseRow (idx : Nat) (rawText ansRaw : PyStr) : Question :=
  match splitFirstDoubleBr rawText with
  | none =>
    { index := idx
      question := rawText
      options := buildOptions (splitBrTags [])
      answer := pyUpper (strip ansRaw) }
  | some (pre, post) =>
    { index := idx
      question := strip pre
      options := buildOptions (splitBrTags (strip post))
      answer := pyUpper (strip ansRaw) }

/-- The `for idx, row in df.iterrows()` loop of `main.py` lines 75-103,
with `idx` the running 0-based row index. -/
def parseRows (idx : Nat) : List (PyStr × PyStr) → List Question
  | [] => []
  | (blob, ans) :: rest => parseRow idx blob ans :: parseRows (idx + 1) rest

/-- Parsing of the whole row list (row indices start at 0). -/
def parse (rows : List (PyStr × PyStr)) : List Question := parseRows 0 rows

/-- `load_and_parse_data` (`main.py` lines 66-104).  The CSV read is an
external effect, modelled by the `Except` argument: `Except.error e` is
`pd.read_csv` raising with message `e`, `Except.ok rows` is a successful read.
The second component collects the `st.error` notices shown to the user. -/
def load_and_parse_data (readResult : Except PyStr (List (PyStr × PyStr))) :
    List Question × List PyStr :=
  match readResult with
  | Except.error e => ([], ["读取 CSV 文件失败: ".data ++ e])
  | Except.ok rows => (parse rows, [])

/-- One row of the `user_attempt_history` query result, already filtered by
`user_id` and projected to `question_index, is_correct, timestamp`
(`main.py` lines 127-130).  Timestamps are modelled as naturals. -/
structure AttemptRecord where
  question_index : Nat
  is_correct : Bool
  timestamp : Nat
deriving DecidableEq

/-- Ordering of attempt records by timestamp, the key of
`sort_values('timestamp')`. -/
def tsLE (a b : AttemptRecord) : Prop := a.timestamp ≤ b.timestamp

instance : DecidableRel tsLE := fun a b => Nat.decLe a.timestamp b.timestamp

instance : IsTotal AttemptRecord tsLE := ⟨fun a b => Nat.le_total a.timestamp b.timestamp⟩

instance : IsTrans AttemptRecord tsLE := ⟨fun _ _ _ hab hbc => Nat.le_trans hab hbc⟩

/-- "No two records of the same question share a timestamp", the determinacy
hypothesis under which "latest attempt" is well defined. -/
def distinctTs (a b : AttemptRecord) : Prop :=
  a.question_index ≠ b.question_index ∨ a.timestamp ≠ b.timestamp

instance : ∀ a b, Decidable (distinctTs a b) := fun a b =>
  inferInstanceAs (Decidable (_ ∨ _))

/-- `drop_duplicates('question_index', keep='last')` (`main.py` line 138):
keep, in order, each record that has no later record with the same
`question_index`. -/
def dropDupKeepLast : List AttemptRecord → List AttemptRecord
  | [] => []
  | x :: xs =>
    if xs.any (fun y => y.question_index == x.question_index) then dropDupKeepLast xs
    else x :: dropDupKeepLast xs

/-- Projection of records to `(question_index, is_correct)` pairs, the shape
of `dict(zip(latest_attempts['question_index'], latest_attempts['is_correct']))`. -/
def statusPairs (l : List AttemptRecord) : List (Nat × Bool) :=
  l.map (fun r => (r.question_index, r.is_correct))

/-- `get_user_history` (`main.py` lines 125-143).  The supabase round-trip is
the `Except` argument: `Except.error e` is the query raising with message `e`.
The first component is the returned status map, the second the `st.error`
notices shown to the user.  `sort_values('timestamp')` is modelled by a stable
ascending insertion sort on the timestamp. -/
def get_user_history (resp : Except PyStr (List AttemptRecord)) :
    List (Nat × Bool) × List PyStr :=
  match resp with
  | Except.error e => ([], ["数据库连接错误: ".data ++ e])
  | Except.ok data =>
    if data = [] then ([], [])
    else (statusPairs (dropDupKeepLast (List.insertionSort tsLE data)), [])

/-- `get_ai_explanation` (`main.py` lines 156-180).  The whole `try` block —
secrets lookup, client construction and chat-completion call — is the
`Except` argument: `Except.ok content` is a successful call returning
`content`, `Except.error e` is any exception with message `e`. -/
def get_ai_explanation (question user_choice correct_choice : PyStr)
    (callResult : Except PyStr PyStr) : PyStr :=
  match callResult with
  | Except.ok content => content
  | Except.error e => "AI 解析暂时不可用: ".data ++ e

/-- The three `view_mode` values (`main.py` line 188). -/
inductive ViewMode
  | grid
  | quiz
  | review_mistakes
deriving DecidableEq

/-- The session state fields of `main.py` lines 185-192. -/
structure SessionState where
  current_q_index : Nat
  view_mode : ViewMode
  explanation : Option PyStr
  mistake_pointer : Nat
deriving DecidableEq

/-- `sum(1 for v in status_map.values() if v)` (`main.py` line 203). -/
def correct_count (m : List (Nat × Bool)) : Nat :=
  (m.filter (fun p => p.2)).length

/-- The overview accuracy metric (`main.py` line 224):
`int(correct_count/completed*100)` when `completed > 0`, else the literal
`"0%"` default.  Floats are idealised as exact rationals, so `int(...)`
truncation is natural-number division. -/
def accuracy_pct (m : List (Nat × Bool)) : Nat :=
  if 0 < m.length then 100 * correct_count m / m.length else 0

/-- The `for i in range(total_q): if i not in status_map: ... break` scan
(`main.py` lines 207-211): first listed index whose key is absent from the
status map. -/
def findTodo (m : List (Nat × Bool)) : List Nat → Option Nat
  | [] => none
  | i :: rest => if dictLookup i m = none then some i else findTodo m rest

/-- `next_todo_index` (`main.py` lines 205-214): the first index in
`range(total_q)` absent from the status map, and `-1` when the loop finishes
without a `break`. -/
def next_todo_index (total_q : Nat) (m : List (Nat × Bool)) : Int :=
  match findTodo m (List.range total_q) with
  | some i => (i : Int)
  | none => -1

/-- The continue-action block of the overview (`main.py` lines 231-239): when
`next_todo_index != -1` the continue button is offered and moves the session
to the quiz view at that index with the explanation cleared; otherwise the
state is unchanged and the completion banner is shown (the returned flag). -/
def continueAction (total_q : Nat) (m : List (Nat × Bool)) (s : SessionState) :
    SessionState × Bool :=
  if next_todo_index total_q m ≠ -1 then
    ({ s with current_q_index := (next_todo_index total_q m).toNat
              view_mode := ViewMode.quiz
              explanation := none }, false)
  else (s, true)

/-- `wrong_indices` (`main.py` lines 217-218 and 381-382): the keys of the
status map with a false value, sorted ascending. -/
def wrongIndices (m : List (Nat × Bool)) : List Nat :=
  List.insertionSort (fun a b => a ≤ b) ((m.filter (fun p => !p.2)).map Prod.fst)

/-- The pointer actually used to index the mistake list (`main.py` lines
391-392): reset to 0 when it reaches or exceeds the list length. -/
def clampPointer (len ptr : Nat) : Nat := if ptr ≥ len then 0 else ptr

/-- What the mistake-review dispatcher renders. -/
inductive ReviewOutcome
  | cleared
  | render (q_idx : Nat) (pointer : Nat)
deriving DecidableEq

/-- The mistake-review view dispatch (`main.py` lines 379-401): with an empty
mistake list it shows the cleared-mistakes terminal display; otherwise it
clamps the pointer and renders the mistake question at the clamped pointer.
The list access carries its in-bounds proof. -/
def review_mistakes_view (m : List (Nat × Bool)) (ptr : Nat) : ReviewOutcome :=
  if hw : (wrongIndices m).length = 0 then ReviewOutcome.cleared
  else
    ReviewOutcome.render
      ((wrongIndices m).get
        ⟨clampPointer (wrongIndices m).length ptr, by
          have hl := Nat.pos_of_ne_zero hw
          unfold clampPointer
          split <;> omega⟩)
      (clampPointer (wrongIndices m).length ptr)

/-- A radio label `f"{k}. {v}"` (`main.py` line 301). -/
def optionLabel (k v : PyStr) : PyStr := k ++ '.' :: ' ' :: v

/-- `selected_label.split(".")[0]` (`main.py` line 318): the prefix before the
first period. -/
def labelKey (label : PyStr) : PyStr := label.takeWhile (fun c => !(c == '.'))

/-- The submission check `user_choice_key == correct_key`
(`main.py` lines 318-320). -/
def judge (selected_label answer : PyStr) : Bool :=
  labelKey selected_label == answer

/-- A status map with 3 completed answers, 2 of them correct. -/
def cexStatus : List (Nat × Bool) := [(0, true), (1, true), (2, false)]

/-- Two source rows; the second row's blob yields no options. -/
def demoRows : List (PyStr × PyStr) :=
  [("Q1<br><br>A. opt1<br>B. opt2".data, "a".data), ("no options".data, "b".data)]

/-- The initial session state (`main.py` lines 185-192). -/
def demoState : SessionState :=
  { current_q_index := 0
    view_mode := ViewMode.grid
    explanation := none
    mistake_pointer := 0 }

/-- Two attempts at question 0: first wrong (timestamp 1), then right
(timestamp 2). -/
def demoRecords : List AttemptRecord :=
  [{ question_index := 0, is_correct := false, timestamp := 1 },
   { question_index := 0, is_correct := true, timestamp := 2 }]

/-- A row blob whose single option letter is `A`. -/
def demoBlob : PyStr := "Q<br><br>A. x".data

/-!  ## Association-list (Python dict) lemmas -/

theorem dictLookup_dictInsert {κ β : Type} [DecidableEq κ]
    (m : List (κ × β)) (a : κ) (v : β) (k : κ) :
    dictLookup k (dictInsert m a v) = if a = k then some v else dictLookup k m := by
  induction m with
  | nil => simp [dictInsert, dictLookup]
  | cons p rest ih =>
    obtain ⟨b, w⟩ := p
    simp only [dictInsert]
    by_cases hba : b = a
    · subst hba
      by_cases hbk : b = k <;> simp [dictLookup, hbk]
    · simp only [if_neg hba, dictLookup, ih]
      by_cases hbk : b = k
      · subst hbk
        have hak : ¬ a = b := fun h => hba h.symm
        simp [hak]
      · simp [hbk]

theorem lastVal_cons {κ β : Type} [DecidableEq κ] (k a : κ) (v : β) (rest : List (κ × β)) :
    lastVal k ((a, v) :: rest) =
      match lastVal k rest with
      | some w => some w
      | none => if a = k then some v else none := rfl

theorem dictLookup_foldl_insert {κ β : Type} [DecidableEq κ] (ps : List (κ × β)) :
    ∀ (init : List (κ × β)) (k : κ),
      dictLookup k (ps.foldl (fun m kv => dictInsert m kv.1 kv.2) init) =
        match lastVal k ps with
        | some v => some v
        | none => dictLookup k init := by
  induction ps with
  | nil => intro init k; rfl
  | cons p rest ih =>
    intro init k
    obtain ⟨a, v⟩ := p
    rw [List.foldl_cons, ih, lastVal_cons]
    cases h : lastVal k rest with
    | some w => rfl
    | none => by_cases hak : a = k <;> simp [dictLookup_dictInsert, hak]

theorem foldl_matchOption (cands : List PyStr) :
    ∀ init : List (PyStr × PyStr),
      cands.foldl
        (fun m opt =>
          match matchOption (strip opt) with
          | some kv => dictInsert m kv.1 kv.2
          | none => m) init =
      (cands.filterMap (fun o => matchOption (strip o))).foldl
        (fun m kv => dictInsert m kv.1 kv.2) init := by
  induction cands with
  | nil => intro init; rfl
  | cons o rest ih =>
    intro init
    rw [List.foldl_cons, List.filterMap_cons]
    cases h : matchOption (strip o) <;> simp [h, ih]

/-- Lookup in a parsed option dictionary is the value of the last matching
candidate with that letter; non-matching candidates contribute nothing. -/
theorem buildOptions_lookup (cands : List PyStr) (k : PyStr) :
    dictLookup k (buildOptions cands) =
      lastVal k (cands.filterMap (fun o => matchOption (strip o))) := by
  rw [buildOptions, foldl_matchOption, dictLookup_foldl_insert]
  cases h : lastVal k (cands.filterMap fun o => matchOption (strip o)) <;>
    simp [dictLookup]

theorem mem_dictInsert {κ β : Type} [DecidableEq κ] {p : κ × β}
    (m : List (κ × β)) (a : κ) (v : β) :
    p ∈ dictInsert m a v → p = (a, v) ∨ p ∈ m := by
  induction m with
  | nil => simp [dictInsert]
  | cons q rest ih =>
    obtain ⟨b, w⟩ := q
    simp only [dictInsert]
    by_cases hba : b = a
    · subst hba
      rw [if_pos rfl]
      intro h
      rcases List.mem_cons.mp h with h' | h'
      · exact Or.inl h'
      · exact Or.inr (List.mem_cons_of_mem _ h')
    · rw [if_neg hba]
      intro h
      rcases List.mem_cons.mp h with h' | h'
      · exact Or.inr (h' ▸ List.mem_cons_self _ _)
      · rcases ih h' with h'' | h''
        · exact Or.inl h''
        · exact Or.inr (List.mem_cons_of_mem _ h'')

theorem matchOption_key {s k v : PyStr} (h : matchOption s = some (k, v)) :
    ∃ c, k = [c] ∧ (c = 'A' ∨ c = 'B' ∨ c = 'C' ∨ c = 'D') := by
  unfold matchOption at h
  split at h
  · rename_i c rest heq
    split at h
    · rename_i hc
      simp only [Option.some.injEq, Prod.mk.injEq] at h
      exact ⟨c, h.1.symm, hc⟩
    · simp at h
  · simp at h

theorem foldl_options_key (cands : List PyStr) :
    ∀ init : List (PyStr × PyStr),
      (∀ p ∈ init, ∃ c, p.1 = [c] ∧ (c = 'A' ∨ c = 'B' ∨ c = 'C' ∨ c = 'D')) →
      ∀ p ∈ cands.foldl
          (fun m opt =>
            match matchOption (strip opt) with
            | some kv => dictInsert m kv.1 kv.2
            | none => m) init,
        ∃ c, p.1 = [c] ∧ (c = 'A' ∨ c = 'B' ∨ c = 'C' ∨ c = 'D') := by
  induction cands with
  | nil => intro init hinit p hp; exact hinit p hp
  | cons o rest ih =>
    intro init hinit p hp
    rw [List.foldl_cons] at hp
    cases h : matchOption (strip o) with
    | none =>
      rw [h] at hp
      exact ih init hinit p hp
    | some kv =>
      rw [h] at hp
      refine ih _ ?_ p hp
      intro q hq
      rcases mem_dictInsert _ _ _ hq with hq' | hq'
      · obtain ⟨c, hc1, hc2⟩ := matchOption_key h
        exact ⟨c, by rw [hq']; exact hc1, hc2⟩
      · exact hinit q hq'

/-- Every key of a parsed option dictionary is a one-letter string `A`-`D`. -/
theorem buildOptions_key {p : PyStr × PyStr} (cands : List PyStr)
    (hp : p ∈ buildOptions cands) :
    ∃ c, p.1 = [c] ∧ (c = 'A' ∨ c = 'B' ∨ c = 'C' ∨ c = 'D') :=
  foldl_options_key cands [] (by simp) p hp

theorem dictLookup_ne_none_of_mem {κ β : Type} [DecidableEq κ] {k : κ} {v : β} :
    ∀ {m : List (κ × β)}, (k, v) ∈ m → dictLookup k m ≠ none := by
  intro m
  induction m with
  | nil => simp
  | cons p rest ih =>
    intro hmem
    obtain ⟨a, w⟩ := p
    simp only [dictLookup]
    by_cases hak : a = k
    · simp [hak]
    · rw [if_neg hak]
      rcases List.mem_cons.mp hmem with h | h
      · exact absurd (congrArg Prod.fst h).symm hak
      · exact ih h

theorem dictGet_eq_default {κ β : Type} [DecidableEq κ] {m : List (κ × β)} {k : κ}
    (d : β) (h : dictLookup k m = none) : dictGet m k d = d := by
  unfold dictGet
  rw [h]

/-!  ## Parser shape lemmas -/

theorem parseRow_index (idx : Nat) (b a : PyStr) : (parseRow idx b a).index = idx := by
  unfold parseRow
  cases h : splitFirstDoubleBr b with
  | none => rfl
  | some pq => obtain ⟨pre, post⟩ := pq; rfl

theorem parseRows_length (rows : List (PyStr × PyStr)) :
    ∀ i, (parseRows i rows).length = rows.length := by
  induction rows with
  | nil => intro i; rfl
  | cons p rest ih =>
    intro i
    obtain ⟨b, a⟩ := p
    simp [parseRows, ih]

theorem parseRows_map_index (rows : List (PyStr × PyStr)) :
    ∀ i, (parseRows i rows).map Question.index = List.range' i rows.length := by
  induction rows with
  | nil => intro i; rfl
  | cons p rest ih =>
    intro i
    obtain ⟨b, a⟩ := p
    simp only [parseRows, List.map_cons, parseRow_index, ih, List.length_cons]
    rfl

theorem parseRows_getElem (rows : List (PyStr × PyStr)) :
    ∀ i j, (parseRows i rows)[j]? =
      (rows[j]?).map (fun p => parseRow (i + j) p.1 p.2) := by
  induction rows with
  | nil => intro i j; simp [parseRows]
  | cons p rest ih =>
    intro i j
    obtain ⟨b, a⟩ := p
    cases j with
    | zero => simp [parseRows]
    | succ j =>
      simp only [parseRows, List.getElem?_cons_succ, ih]
      have harith : i + 1 + j = i + (j + 1) := by omega
      rw [harith]

/-!  ## History reduction lemmas -/

theorem statusPairs_cons (x : AttemptRecord) (xs : List AttemptRecord) :
    statusPairs (x :: xs) = (x.question_index, x.is_correct) :: statusPairs xs := rfl

theorem dropDupKeepLast_cons (x : AttemptRecord) (xs : List AttemptRecord) :
    dropDupKeepLast (x :: xs) =
      if xs.any (fun y => y.question_index == x.question_index) then dropDupKeepLast xs
      else x :: dropDupKeepLast xs := rfl

theorem lastVal_statusPairs_ne_none (xs : List AttemptRecord) (q : Nat) :
    lastVal q (statusPairs xs) ≠ none ↔ ∃ y ∈ xs, y.question_index = q := by
  induction xs with
  | nil => simp [statusPairs, lastVal]
  | cons x xs ih =>
    rw [statusPairs_cons, lastVal_cons]
    cases h : lastVal q (statusPairs xs) with
    | some w =>
      obtain ⟨y, hy, hyq⟩ := ih.mp (by simp [h])
      exact iff_of_true (by simp) ⟨y, List.mem_cons_of_mem x hy, hyq⟩
    | none =>
      by_cases hq : x.question_index = q
      · exact iff_of_true (by simp [hq]) ⟨x, List.mem_cons_self x xs, hq⟩
      · simp only [hq, if_false]
        constructor
        · intro hfalse; exact absurd rfl hfalse
        · rintro ⟨y, hy, hyq⟩
          rcases List.mem_cons.mp hy with h' | h'
          · exact absurd (h' ▸ hyq) hq
          · exact absurd h (ih.mpr ⟨y, h', hyq⟩)

theorem dictLookup_dropDupKeepLast (l : List AttemptRecord) (q : Nat) :
    dictLookup q (statusPairs (dropDupKeepLast l)) = lastVal q (statusPairs l) := by
  induction l with
  | nil => rfl
  | cons x xs ih =>
    rw [statusPairs_cons, lastVal_cons, dropDupKeepLast_cons]
    by_cases hany : xs.any (fun y => y.question_index == x.question_index) = true
    · rw [if_pos hany, ih]
      cases h : lastVal q (statusPairs xs) with
      | some w => rfl
      | none =>
        by_cases hq : x.question_index = q
        · obtain ⟨y, hy, hyq⟩ := List.any_eq_true.mp hany
          have hyq' : y.question_index = q := by
            rw [Nat.beq_eq_true_eq] at hyq
            omega
          exact absurd h ((lastVal_statusPairs_ne_none xs q).mpr ⟨y, hy, hyq'⟩)
        · simp [hq]
    · rw [if_neg hany, statusPairs_cons]
      simp only [dictLookup]
      rw [ih]
      cases h : lastVal q (statusPairs xs) with
      | some w =>
        by_cases hq : x.question_index = q
        · obtain ⟨y, hy, hyq⟩ := (lastVal_statusPairs_ne_none xs q).mp (by simp [h])
          exact absurd (List.any_eq_true.mpr ⟨y, hy, by simp [hyq, hq]⟩) hany
        · simp [hq]
      | none => rfl

theorem distinctTs_symm : Symmetric distinctTs := by
  intro a b h
  exact h.imp (fun h' => h'.symm) (fun h' => h'.symm)

/-- In a list sorted ascending by timestamp whose same-question records have
distinct timestamps, the value `lastVal` extracts for `q` is the correctness
of the record for `q` with the maximal timestamp. -/
theorem lastVal_statusPairs_max :
    ∀ (l : List AttemptRecord) (q : Nat) (r : AttemptRecord),
      List.Sorted tsLE l →
      List.Pairwise distinctTs l →
      r ∈ l → r.question_index = q →
      (∀ x ∈ l, x.question_index = q → x.timestamp ≤ r.timestamp) →
      lastVal q (statusPairs l) = some r.is_correct := by
  intro l
  induction l with
  | nil => intro q r _ _ hr; exact absurd hr (List.not_mem_nil r)
  | cons x xs ih =>
    intro q r hsort hdist hr hq hmax
    have hsort' : List.Sorted tsLE xs := (List.sorted_cons.mp hsort).2
    have hHead : ∀ b ∈ xs, tsLE x b := (List.sorted_cons.mp hsort).1
    have hdist' : List.Pairwise distinctTs xs := (List.pairwise_cons.mp hdist).2
    have hdHead : ∀ b ∈ xs, distinctTs x b := (List.pairwise_cons.mp hdist).1
    rw [statusPairs_cons, lastVal_cons]
    cases h : lastVal q (statusPairs xs) with
    | some w =>
      obtain ⟨y, hy, hyq⟩ := (lastVal_statusPairs_ne_none xs q).mp (by simp [h])
      rcases List.mem_cons.mp hr with hrx | hrxs
      · -- r is the head, but a later record y also has question q:
        -- then x.timestamp = y.timestamp, contradicting distinctTs
        subst hrx
        have h1 : r.timestamp ≤ y.timestamp := hHead y hy
        have h2 : y.timestamp ≤ r.timestamp :=
          hmax y (List.mem_cons_of_mem _ hy) hyq
        have hts : r.timestamp = y.timestamp := Nat.le_antisymm h1 h2
        rcases hdHead y hy with hne | hne
        · exact absurd (hq.trans hyq.symm) hne
        · exact absurd hts hne
      · have := ih q r hsort' hdist' hrxs hq
          (fun z hz hzq => hmax z (List.mem_cons_of_mem _ hz) hzq)
        rw [h] at this
        exact this
    | none =>
      have hnone : ¬ ∃ y ∈ xs, y.question_index = q := fun hex =>
        absurd h ((lastVal_statusPairs_ne_none xs q).mpr hex)
      rcases List.mem_cons.mp hr with hrx | hrxs
      · subst hrx
        simp [hq]
      · exact absurd ⟨r, hrxs, hq⟩ hnone

theorem dictLookup_get_user_history (recs : List AttemptRecord) (q : Nat) :
    dictLookup q (get_user_history (Except.ok recs)).1 =
      lastVal q (statusPairs (List.insertionSort tsLE recs)) := by
  by_cases h : recs = []
  · subst h; rfl
  · show dictLookup q (if recs = [] then (([] : List (Nat × Bool)), ([] : List PyStr))
      else (statusPairs (dropDupKeepLast (List.insertionSort tsLE recs)), [])).1 = _
    rw [if_neg h]
    exact dictLookup_dropDupKeepLast _ q

/-!  ## Overview scan lemmas -/

theorem findTodo_append (m : List (Nat × Bool)) (l1 l2 : List Nat) :
    findTodo m (l1 ++ l2) =
      match findTodo m l1 with
      | some i => some i
      | none => findTodo m l2 := by
  induction l1 with
  | nil => rfl
  | cons i rest ih =>
    simp only [List.cons_append, findTodo]
    by_cases h : dictLookup i m = none
    · simp [h]
    · simp [h, ih]

theorem findTodo_range_none (m : List (Nat × Bool)) (n : Nat)
    (h : ∀ j < n, dictLookup j m ≠ none) :
    findTodo m (List.range n) = none := by
  induction n with
  | zero => rfl
  | succ n ih =>
    rw [List.range_succ, findTodo_append]
    rw [ih (fun j hj => h j (Nat.lt_succ_of_lt hj))]
    simp only [findTodo]
    rw [if_neg (h n (Nat.lt_succ_self n))]

theorem findTodo_range_least (m : List (Nat × Bool)) (n i₀ : Nat)
    (hlt : i₀ < n) (hmiss : dictLookup i₀ m = none)
    (hbefore : ∀ j < i₀, dictLookup j m ≠ none) :
    findTodo m (List.range n) = some i₀ := by
  induction n with
  | zero => omega
  | succ n ih =>
    rw [List.range_succ, findTodo_append]
    rcases Nat.lt_succ_iff_lt_or_eq.mp hlt with h | h
    · rw [ih h]
    · subst h
      rw [findTodo_range_none m i₀ hbefore]
      simp [findTodo, hmiss]

/-!  ## Quiz submission lemmas -/

theorem labelKey_optionLabel {c : Char} (hc : ¬ c = '.') (v : PyStr) :
    labelKey (optionLabel [c] v) = [c] := by
  have hcb : (c == '.') = false := by
    rw [beq_eq_false_iff_ne]
    exact hc
  simp [labelKey, optionLabel, List.takeWhile, hcb]

/-!  ## Claim theorems -/

/-- C1, counterexample: the overview accuracy metric does not round.  With 3
completed answers of which 2 are correct, the code shows `int(200/3) = 66`
while `round(200/3) = 67`. -/
theorem accuracy_pct_not_round_cex :
    ¬ ((accuracy_pct cexStatus : ℤ) =
        round ((100 * (correct_count cexStatus : ℚ)) / (cexStatus.length : ℚ))) := by
  have h1 : accuracy_pct cexStatus = 66 := by decide
  have h2 : correct_count cexStatus = 2 := by decide
  have h3 : cexStatus.length = 3 := by decide
  rw [h1, h2, h3]
  have h4 : round ((100 * ((2 : ℕ) : ℚ)) / ((3 : ℕ) : ℚ)) = 67 := by
    rw [round_eq]
    rw [show (100 * ((2 : ℕ) : ℚ)) / ((3 : ℕ) : ℚ) + 1 / 2 = 403 / 6 by push_cast; ring]
    rw [Int.floor_eq_iff]
    constructor <;> norm_num
  rw [h4]
  decide

/-- C1 (amended): for every history status map the overview accuracy
percentage equals the truncation (floor) of `100 * correct_count / completed`
when `completed > 0` — not its rounding — and equals 0 when `completed == 0`;
it never divides by zero. -/
theorem accuracy_pct_truncates (m : List (Nat × Bool)) :
    (m.length = 0 → accuracy_pct m = 0) ∧
    (0 < m.length →
      accuracy_pct m = Nat.floor ((100 * (correct_count m : ℚ)) / (m.length : ℚ))) := by
  constructor
  · intro h
    simp [accuracy_pct, h]
  · intro h
    unfold accuracy_pct
    rw [if_pos h]
    rw [show (100 * (correct_count m : ℚ)) = ((100 * correct_count m : ℕ) : ℚ) by
      push_cast; ring]
    rw [Nat.floor_div_nat, Nat.floor_natCast]

/-- Witness for C1's amended theorem at concrete inputs. -/
theorem accuracy_pct_truncates_witness :
    accuracy_pct [] = 0 ∧
    accuracy_pct cexStatus =
      Nat.floor ((100 * (correct_count cexStatus : ℚ)) / (cexStatus.length : ℚ)) :=
  ⟨(accuracy_pct_truncates []).1 rfl, (accuracy_pct_truncates cexStatus).2 (by decide)⟩

/-- C2, counterexample: when the CSV read fails, `load_and_parse_data` does
not halt the session — it shows an error notice and returns an empty question
list, with which the session continues. -/
theorem load_continues_after_read_failure_cex :
    load_and_parse_data (Except.error "boom".data) =
      (([] : List Question), ["读取 CSV 文件失败: boom".data]) := by
  decide

/-- C2 (amended): if the source cannot be read, the whole batch fails — the
reader's error is converted into a user-visible notice and the question list
is empty (no partial per-row output) — but the session is not halted; on a
successful read the whole batch is parsed with no notice. -/
theorem load_error_notice_and_empty (e : PyStr) :
    load_and_parse_data (Except.error e) = ([], ["读取 CSV 文件失败: ".data ++ e]) ∧
    ∀ rows, load_and_parse_data (Except.ok rows) = (parse rows, []) :=
  ⟨rfl, fun _ => rfl⟩

/-- C3: `parse` returns exactly one `Question` per row, with `index` values
exactly `0..N-1` in source order, and the question at position `j` is the
parse of row `j` — so a row whose blob yields zero matched options is still
kept (its `options` mapping is empty, as the last conjunct shows for any
candidate list with no matches) and alignment with the answer key is
preserved. -/
theorem parse_preserves_rows (rows : List (PyStr × PyStr)) :
    (parse rows).length = rows.length ∧
    (parse rows).map Question.index = List.range rows.length ∧
    (∀ j b a, rows[j]? = some (b, a) → (parse rows)[j]? = some (parseRow j b a)) ∧
    (∀ cands, cands.filterMap (fun o => matchOption (strip o)) = [] →
      buildOptions cands = []) := by
  refine ⟨parseRows_length rows 0, ?_, ?_, ?_⟩
  · rw [parse, parseRows_map_index, List.range_eq_range']
  · intro j b a h
    rw [parse, parseRows_getElem, h]
    simp
  · intro cands h
    rw [buildOptions, foldl_matchOption, h]
    rfl

/-- Witness for C3 on a concrete two-row batch whose second row has no
options. -/
theorem parse_preserves_rows_witness :
    (parse demoRows).length = 2 ∧
    (parse demoRows)[1]? = some (parseRow 1 "no options".data "b".data) ∧
    (parseRow 1 "no options".data "b".data).options = [] := by
  refine ⟨?_, (parse_preserves_rows demoRows).2.2.1 1 _ _ rfl, by decide⟩
  rw [(parse_preserves_rows demoRows).1]
  rfl

/-- C4: the per-row parse algorithm — if the double line-break marker is
absent the whole blob is the question and the options mapping is empty;
otherwise the question is the stripped segment before the first marker and
the options come from splitting the stripped remainder on single line-break
markers; a letter's final value is that of the last matching candidate
carrying it (duplicates overwrite, non-matching candidates are silently
dropped). -/
theorem parseRow_algorithm (blob : PyStr) :
    (splitFirstDoubleBr blob = none →
      ∀ idx ans, (parseRow idx blob ans).question = blob ∧
        (parseRow idx blob ans).options = []) ∧
    (∀ pre post, splitFirstDoubleBr blob = some (pre, post) →
      ∀ idx ans, (parseRow idx blob ans).question = strip pre ∧
        (parseRow idx blob ans).options = buildOptions (splitBrTags (strip post))) ∧
    (∀ cands k, dictLookup k (buildOptions cands) =
      lastVal k (cands.filterMap (fun o => matchOption (strip o)))) := by
  refine ⟨?_, ?_, fun cands k => buildOptions_lookup cands k⟩
  · intro h idx ans
    unfold parseRow
    rw [h]
    refine ⟨rfl, ?_⟩
    show buildOptions (splitBrTags []) = []
    decide
  · intro pre post h idx ans
    unfold parseRow
    rw [h]
    exact ⟨rfl, rfl⟩

/-- Witness for C4: a markerless blob keeps everything as question text with
empty options; with duplicate `A.` candidates and a junk candidate, lookup
returns the later `A` value and the junk is dropped. -/
theorem parseRow_algorithm_witness :
    (parseRow 0 "plain question".data "a".data).options = [] ∧
    dictLookup "A".data (buildOptions ["A. x".data, "junk".data, "A. y".data]) =
      some "y".data := by
  constructor
  · exact ((parseRow_algorithm "plain question".data).1 (by decide) 0 "a".data).2
  · rw [(parseRow_algorithm []).2.2 ["A. x".data, "junk".data, "A. y".data] "A".data]
    decide

/-- C5: `get_user_history` returns an empty mapping (not an error) when the
user has no records, and maps each attempted question to the `is_correct`
value of its record with the latest timestamp (timestamps of a question's
records being distinct, per `distinctTs`). -/
theorem get_user_history_latest :
    (get_user_history (Except.ok ([] : List AttemptRecord)) = ([], [])) ∧
    ∀ (recs : List AttemptRecord) (q : Nat) (r : AttemptRecord),
      List.Pairwise distinctTs recs →
      r ∈ recs → r.question_index = q →
      (∀ x ∈ recs, x.question_index = q → x.timestamp ≤ r.timestamp) →
      dictLookup q (get_user_history (Except.ok recs)).1 = some r.is_correct := by
  refine ⟨rfl, ?_⟩
  intro recs q r hdist hr hq hmax
  rw [dictLookup_get_user_history]
  have hperm : List.Perm (List.insertionSort tsLE recs) recs :=
    List.perm_insertionSort tsLE recs
  exact lastVal_statusPairs_max _ q r
    (List.sorted_insertionSort tsLE recs)
    ((hperm.pairwise_iff (fun h => distinctTs_symm h)).mpr hdist)
    (hperm.mem_iff.mpr hr) hq
    (fun x hx hxq => hmax x (hperm.subset hx) hxq)

/-- Witness for C5: two attempts at question 0, wrong at timestamp 1 then
right at timestamp 2 — the status map reports question 0 as correct. -/
theorem get_user_history_latest_witness :
    dictLookup 0 (get_user_history (Except.ok demoRecords)).1 = some true := by
  have h := get_user_history_latest.2 demoRecords 0
    { question_index := 0, is_correct := true, timestamp := 2 }
    (by decide) (by decide) rfl (by decide)
  simpa using h

/-- C6: when the history-store query fails, `get_user_history` does not
propagate the exception: it emits the store-unavailable notice and returns an
empty mapping, so the caller degrades to "no history". -/
theorem get_user_history_store_failure (e : PyStr) :
    get_user_history (Except.error e) = ([], ["数据库连接错误: ".data ++ e]) := rfl

/-- C7: on any failure of the external text-generation call,
`get_ai_explanation` does not raise — it returns the human-readable
placeholder string naming the failure, so the caller always receives a
displayable string. -/
theorem get_ai_explanation_never_raises (question user_choice correct_choice e : PyStr) :
    get_ai_explanation question user_choice correct_choice (Except.error e) =
      "AI 解析暂时不可用: ".data ++ e := rfl

/-- C8: the continue action computes the lowest index in `0..N-1` absent from
the status map and moves the session to the quiz view at that index with the
explanation cleared; when every index is present, `next_todo_index` is `-1`,
the state is unchanged and the completion banner is shown instead. -/
theorem continue_action_spec (n : Nat) (m : List (Nat × Bool)) (s : SessionState) :
    (∀ i₀, i₀ < n → dictLookup i₀ m = none → (∀ j < i₀, dictLookup j m ≠ none) →
      next_todo_index n m = (i₀ : Int) ∧
      continueAction n m s =
        ({ s with current_q_index := i₀
                  view_mode := ViewMode.quiz
                  explanation := none }, false)) ∧
    ((∀ i < n, dictLookup i m ≠ none) →
      next_todo_index n m = -1 ∧ continueAction n m s = (s, true)) := by
  constructor
  · intro i₀ hlt hmiss hbefore
    have hnt : next_todo_index n m = (i₀ : Int) := by
      unfold next_todo_index
      rw [findTodo_range_least m n i₀ hlt hmiss hbefore]
    refine ⟨hnt, ?_⟩
    unfold continueAction
    rw [hnt, if_pos (by omega : ((i₀ : Int)) ≠ -1)]
    simp
  · intro hall
    have hnt : next_todo_index n m = -1 := by
      unfold next_todo_index
      rw [findTodo_range_none m n hall]
    refine ⟨hnt, ?_⟩
    unfold continueAction
    rw [hnt]
    simp

/-- Witness for C8: with questions `0..2` and only question 0 attempted, the
continue action jumps to question 1; with both questions of a 2-question bank
attempted, the banner shows and the state is unchanged. -/
theorem continue_action_spec_witness :
    continueAction 3 [(0, true)] demoState =
      ({ demoState with current_q_index := 1
                        view_mode := ViewMode.quiz
                        explanation := none }, false) ∧
    continueAction 2 [(0, true), (1, false)] demoState = (demoState, true) := by
  constructor
  · exact ((continue_action_spec 3 [(0, true)] demoState).1 1 (by decide) (by decide)
      (by decide)).2
  · exact ((continue_action_spec 2 [(0, true), (1, false)] demoState).2 (by decide)).2

/-- C9: in mistake review, a cursor at or past the end of the mistake list is
clamped to 0 before indexing (the clamped cursor is always in bounds, as the
`getElem?`-success conjunct shows), a cursor in range is used as is, and an
empty mistake list yields the cleared-mistakes terminal display instead of an
out-of-range access. -/
theorem review_mistakes_bounds (m : List (Nat × Bool)) (ptr : Nat) :
    (wrongIndices m = [] → review_mistakes_view m ptr = ReviewOutcome.cleared) ∧
    (wrongIndices m ≠ [] →
      clampPointer (wrongIndices m).length ptr < (wrongIndices m).length ∧
      ((wrongIndices m).length ≤ ptr → clampPointer (wrongIndices m).length ptr = 0) ∧
      (ptr < (wrongIndices m).length → clampPointer (wrongIndices m).length ptr = ptr) ∧
      ∃ qi, (wrongIndices m)[clampPointer (wrongIndices m).length ptr]? = some qi ∧
        review_mistakes_view m ptr =
          ReviewOutcome.render qi (clampPointer (wrongIndices m).length ptr)) := by
  constructor
  · intro h
    unfold review_mistakes_view
    rw [dif_pos (by rw [h]; rfl)]
  · intro h
    have hne : (wrongIndices m).length ≠ 0 := by
      intro h0
      exact h (List.eq_nil_of_length_eq_zero h0)
    have hclamp : clampPointer (wrongIndices m).length ptr < (wrongIndices m).length := by
      have := Nat.pos_of_ne_zero hne
      unfold clampPointer
      split <;> omega
    refine ⟨hclamp, ?_, ?_, ?_⟩
    · intro hge
      unfold clampPointer
      rw [if_pos hge]
    · intro hlt
      unfold clampPointer
      rw [if_neg (by omega)]
    · refine ⟨(wrongIndices m).get ⟨clampPointer (wrongIndices m).length ptr, hclamp⟩, ?_, ?_⟩
      · rw [List.getElem?_eq_getElem hclamp]
        rfl
      · unfold review_mistakes_view
        rw [dif_neg hne]

/-- Witness for C9: question 0 answered right gives an empty mistake list and
the cleared display; mistake list `[2]` with stale cursor 5 clamps to 0 and
renders question 2. -/
theorem review_mistakes_bounds_witness :
    review_mistakes_view [(0, true)] 7 = ReviewOutcome.cleared ∧
    review_mistakes_view [(0, true), (2, false)] 5 = ReviewOutcome.render 2 0 := by
  constructor
  · exact (review_mistakes_bounds [(0, true)] 7).1 (by decide)
  · obtain ⟨h1, h2, h3, qi, hq, hr⟩ :=
      (review_mistakes_bounds [(0, true), (2, false)] 5).2 (by decide)
    have hqi : qi = 2 := Option.some.inj
      (hq.symm.trans (by decide :
        (wrongIndices [(0, true), (2, false)])[clampPointer
          (wrongIndices [(0, true), (2, false)]).length 5]? = some 2))
    rw [hqi] at hr
    rw [hr]
    decide

theorem parseRow_options_key {idx : Nat} {blob ans : PyStr} {p : PyStr × PyStr}
    (hp : p ∈ (parseRow idx blob ans).options) :
    ∃ c, p.1 = [c] ∧ (c = 'A' ∨ c = 'B' ∨ c = 'C' ∨ c = 'D') := by
  unfold parseRow at hp
  cases h : splitFirstDoubleBr blob with
  | none =>
    rw [h] at hp
    exact buildOptions_key _ hp
  | some pq =>
    obtain ⟨pre, post⟩ := pq
    rw [h] at hp
    exact buildOptions_key _ hp

/-- C10: the answer column is stripped and uppercased but never validated.
For a row whose normalised answer is not a key of its parsed options, the
question is still produced with no notice (last conjunct: parsing emits no
warnings and keeps every row), every submission built from its option labels
is judged incorrect (the letter comparison can never succeed), and the
explanation call's correct-choice argument falls back to the literal
`未知`. -/
theorem answer_not_validated (idx : Nat) (blob ans : PyStr)
    (hmiss : dictLookup (parseRow idx blob ans).answer (parseRow idx blob ans).options =
      none) :
    (∀ k v, (k, v) ∈ (parseRow idx blob ans).options →
      judge (optionLabel k v) (parseRow idx blob ans).answer = false) ∧
    dictGet (parseRow idx blob ans).options (parseRow idx blob ans).answer "未知".data =
      "未知".data ∧
    (∀ rows j b a, rows[j]? = some (b, a) →
      (parse rows)[j]? = some (parseRow j b a) ∧
      (load_and_parse_data (Except.ok rows)).2 = []) := by
  refine ⟨?_, dictGet_eq_default _ hmiss, ?_⟩
  · intro k v hmem
    obtain ⟨c, hk, hc⟩ := parseRow_options_key hmem
    simp only at hk
    subst hk
    have hcdot : ¬ c = '.' := by
      rcases hc with h | h | h | h <;> subst h <;> decide
    unfold judge
    rw [labelKey_optionLabel hcdot]
    rw [beq_eq_false_iff_ne]
    intro heq
    exact dictLookup_ne_none_of_mem (heq ▸ hmem) hmiss
  · intro rows j b a h
    refine ⟨?_, rfl⟩
    rw [parse, parseRows_getElem, h]
    simp

/-- Witness for C10: blob `Q<br><br>A. x` with answer `e` normalises to
answer `E`, which is not an option key; the only possible submission `A` is
judged incorrect and the correct-choice text falls back to `未知`. -/
theorem answer_not_validated_witness :
    judge (optionLabel "A".data "x".data) (parseRow 0 demoBlob "e".data).answer = false ∧
    dictGet (parseRow 0 demoBlob "e".data).options (parseRow 0 demoBlob "e".data).answer
      "未知".data = "未知".data := by
  have h := answer_not_validated 0 demoBlob "e".data (by decide)
  exact ⟨h.1 "A".data "x".data (by decide), h.2.1⟩
